import Mathlib

/-!
Shallow embedding of the Fast-Fourier trapdoor sampler core
(`crates/falcon/src/ffsampling.rs`): the Gram-matrix builder, the 2x2 LDL*
factorization step, the recursive LDL tree builder, the tree normalizer and
the recursive fast-Fourier sampler.

Floating-point complex scalars (`Complex64`) are modelled by pairs of exact
rationals with the usual complex arithmetic.  External collaborators of the
core (the polynomial type's elementwise arithmetic, the structural FFT
split/merge, the scalar discrete-Gaussian primitive `sampler_z`, the
parameters object and the random-bit source) are not part of the analyzed
source; they are either modelled from the specification's interface
description (elementwise arithmetic, structural split/merge, constants) or
passed as explicit parameters (the scalar sampler together with its
threaded random-state, and the scalar square root used by the normalizer).
-/

namespace FalconFFO

/-- Complex scalar with exact rational components, modelling the `Complex64`
values of the source under exact arithmetic. -/
structure Cx where
  re : ℚ
  im : ℚ
deriving DecidableEq

instance : Zero Cx := ⟨⟨0, 0⟩⟩

instance : One Cx := ⟨⟨1, 0⟩⟩

instance : Add Cx := ⟨fun x y => ⟨x.re + y.re, x.im + y.im⟩⟩

instance : Sub Cx := ⟨fun x y => ⟨x.re - y.re, x.im - y.im⟩⟩

instance : Mul Cx := ⟨fun x y => ⟨x.re * y.re - x.im * y.im, x.re * y.im + x.im * y.re⟩⟩

/-- Complex division `x / y = x * conj y / normSq y`, modelling `Complex64`
division (exact; the source's near-zero-divisor failure mode is the callers'
precondition, as in the spec). -/
instance : Div Cx := ⟨fun x y =>
  ⟨(x.re * y.re + x.im * y.im) / (y.re * y.re + y.im * y.im),
   (x.im * y.re - x.re * y.im) / (y.re * y.re + y.im * y.im)⟩⟩

/-- Complex conjugate (`Complex64::conj`). -/
def Cx.conj (x : Cx) : Cx := ⟨x.re, -x.im⟩

/-- A polynomial in FFT (frequency) domain: its ordered list of complex
evaluations (the `coefficients` vector of `Polynomial<Complex64>`). -/
abbrev Poly := List Cx

/-- Modelled from the spec: coefficient-wise addition of the external
polynomial type (§6 elementwise add), total on unequal lengths by padding
the shorter argument with zeros. -/
def polyAdd : Poly → Poly → Poly
  | [], q => q
  | p, [] => p
  | a :: p, b :: q => (a + b) :: polyAdd p q

/-- Modelled from the spec: coefficient-wise subtraction of the external
polynomial type (§6 elementwise subtract), padding with zeros. -/
def polySub : Poly → Poly → Poly
  | p, [] => p
  | [], b :: q => (0 - b) :: polySub [] q
  | a :: p, b :: q => (a - b) :: polySub p q

/-- Modelled from the spec: elementwise (Hadamard) product
(`Polynomial::hadamard_mul`, §6 elementwise multiply). -/
def hadamard_mul (p q : Poly) : Poly := List.zipWith (fun a b => a * b) p q

/-- Modelled from the spec: elementwise (Hadamard) quotient
(`Polynomial::hadamard_div`, §6 elementwise divide). -/
def hadamard_div (p q : Poly) : Poly := List.zipWith (fun a b => a / b) p q

/-- Elementwise complex conjugation: `p.map(|c| c.conj())` in the source. -/
def conjP (p : Poly) : Poly := p.map Cx.conj

/-- Modelled from the spec: the zero polynomial constant (`Polynomial::zero`,
§6 zero constant), the neutral accumulator of `gram`'s summation loop. -/
def polyZero : Poly := []

/-- Modelled from the spec: the all-zeros constant at a given length (§6). -/
def zeroPoly (n : ℕ) : Poly := List.replicate n 0

/-- Modelled from the spec: the all-ones constant at a given length (§6). -/
def onePoly (n : ℕ) : Poly := List.replicate n 1

/-- A 2x2 matrix of FFT-domain polynomials, row-major:
`s0 = (0,0)`, `s1 = (0,1)`, `s2 = (1,0)`, `s3 = (1,1)`. -/
structure Mat2 where
  s0 : Poly
  s1 : Poly
  s2 : Poly
  s3 : Poly
deriving DecidableEq

/-- `gram`: the Gram matrix of a 2x2 basis matrix in FFT domain.  The
source's triple loop `g[2i+j] += b[2i+k] ⊙ conj(b[2j+k])` (k = 0 then 1,
starting from the zero polynomial) is unrolled over the constant bounds. -/
def gram (b : Mat2) : Mat2 :=
  ⟨polyAdd (polyAdd polyZero (hadamard_mul b.s0 (conjP b.s0))) (hadamard_mul b.s1 (conjP b.s1)),
   polyAdd (polyAdd polyZero (hadamard_mul b.s0 (conjP b.s2))) (hadamard_mul b.s1 (conjP b.s3)),
   polyAdd (polyAdd polyZero (hadamard_mul b.s2 (conjP b.s0))) (hadamard_mul b.s3 (conjP b.s1)),
   polyAdd (polyAdd polyZero (hadamard_mul b.s2 (conjP b.s2))) (hadamard_mul b.s3 (conjP b.s3))⟩

/-- `ldl`: one step of LDL* factorization of a 2x2 Hermitian matrix.
The source binds `let zero = Polynomial::one()` and
`let one = Polynomial::zero()` (the bindings are swapped relative to their
names); this embedding reproduces those bindings verbatim.  The external
one/zero constants are modelled from the spec as the length-n constants
(§6, "zero/one constants at a given length"), n the common length. -/
def ldl (g : Mat2) : Mat2 × Mat2 :=
  let zero := onePoly g.s0.length
  let one := zeroPoly g.s0.length
  let l10 := hadamard_div g.s2 g.s0
  let bc := l10.map (fun c => c * c.conj)
  let abc := hadamard_mul g.s0 bc
  let d11 := polySub g.s3 abc
  (⟨one, zero, l10, one⟩, ⟨g.s0, zero, zero, d11⟩)

/-- The schedule tree (`LdlTree`): a branch holds the off-diagonal
factorization coefficient and two subtrees; a leaf holds a pair of two
complex scalars. -/
inductive LdlTree where
  | Branch : Poly → LdlTree → LdlTree → LdlTree
  | Leaf : Cx × Cx → LdlTree
deriving DecidableEq

/-- Modelled from the spec: the external structural split
(`Polynomial::split_fft`, §6): a length-n sequence becomes two length-(n/2)
sequences, and merging a split sequence reproduces the original; realized
as the even/odd deinterleave. -/
def split_fft : Poly → Poly × Poly
  | [] => ([], [])
  | a :: l =>
    let p := split_fft l
    (a :: p.2, p.1)

/-- Modelled from the spec: the external structural merge
(`Polynomial::merge_fft`, §6), the inverse of `split_fft`; realized as
interleaving. -/
def merge_fft : Poly → Poly → Poly
  | [], ys => ys
  | x :: xs, [] => x :: xs
  | x :: xs, y :: ys => x :: y :: merge_fft xs ys

/-- `ffldl`: the recursive LDL tree builder (Algorithm 9).  Recursion is on
the common polynomial length; the leaf construction mirrors the source's
`try_into` of the two coefficients of `d[0]` resp. `d[3]`. -/
def ffldl (g : Mat2) : LdlTree :=
  let ld := ldl g
  if h : 2 < g.s0.length then
    let p0 := split_fft ld.2.s0
    let p1 := split_fft ld.2.s3
    LdlTree.Branch ld.1.s2
      (ffldl ⟨p0.1, p0.2, conjP p0.2, p0.1⟩)
      (ffldl ⟨p1.1, p1.2, conjP p1.2, p1.1⟩)
  else
    LdlTree.Branch ld.1.s2
      (LdlTree.Leaf (ld.2.s0.getD 0 0, ld.2.s0.getD 1 0))
      (LdlTree.Leaf (ld.2.s3.getD 0 0, ld.2.s3.getD 1 0))
termination_by max g.s0.length g.s3.length
decreasing_by
  all_goals
    have hsplit : ∀ l : Poly,
        (split_fft l).1.length = (l.length + 1) / 2 ∧
        (split_fft l).2.length = l.length / 2 := by
      intro l
      induction l with
      | nil => simp [split_fft]
      | cons a l ih => simp only [split_fft, List.length_cons]; omega
    have hsub : ∀ p q : Poly, (polySub p q).length = max p.length q.length := by
      intro p q
      induction q generalizing p with
      | nil => cases p <;> simp [polySub]
      | cons b q ih =>
        cases p with
        | nil =>
          have := ih []
          simp only [polySub, List.length_cons, List.length_nil] at *
          omega
        | cons a p =>
          have := ih p
          simp only [polySub, List.length_cons] at *
          omega
    simp only [ldl, hadamard_mul, hadamard_div]
    simp only [(hsplit _).1, (hsplit _).2, hsub, List.length_zipWith, List.length_map]
    omega

/-- `normalize_tree`: rewrites every leaf's two scalars; the scalar square
root (`f64::sqrt`, external to the repository) is passed as the explicit
function `sqrtQ`. -/
def normalize_tree (sqrtQ : ℚ → ℚ) : LdlTree → ℚ → LdlTree
  | LdlTree.Branch ell left right, sigma =>
      LdlTree.Branch ell (normalize_tree sqrtQ left sigma) (normalize_tree sqrtQ right sigma)
  | LdlTree.Leaf v, sigma => LdlTree.Leaf (⟨sigma / sqrtQ v.1.re, 0⟩, 0)

/-- Modelled from the spec: the read-only parameters object
(`FalconParameters`); only the standard-deviation floor `sigmin` is read by
this core. -/
structure FalconParameters where
  sigmin : ℚ

/-- `ffsampling`: the recursive fast-Fourier sampler (Algorithm 11).  The
mutable random source is modelled by explicit state passing of a state of
arbitrary type `R`; the external scalar discrete-Gaussian primitive
`sampler_z(center, sigma, sigmin, rng)` is the explicit parameter
`samplerZ`, returning the sampled integer and the advanced state. -/
def ffsampling {R : Type} (samplerZ : ℚ → ℚ → ℚ → R → ℤ × R)
    (t : Poly × Poly) (tree : LdlTree) (parameters : FalconParameters)
    (rng : R) : (Poly × Poly) × R :=
  match tree with
  | LdlTree.Branch ell left right =>
    let bold_t1 := split_fft t.2
    let r1 := ffsampling samplerZ bold_t1 right parameters rng
    let z1 := merge_fft r1.1.1 r1.1.2
    let t0_prime := polyAdd t.1 (hadamard_mul (polySub t.2 z1) ell)
    let bold_t0 := split_fft t0_prime
    let r0 := ffsampling samplerZ bold_t0 left parameters r1.2
    let z0 := merge_fft r0.1.1 r0.1.2
    ((z0, z1), r0.2)
  | LdlTree.Leaf value =>
    let p0 := samplerZ (t.1.getD 0 0).re value.1.re parameters.sigmin rng
    let p1 := samplerZ (t.2.getD 0 0).re value.1.re parameters.sigmin p0.2
    (([⟨(p0.1 : ℚ), 0⟩], [⟨(p1.1 : ℚ), 0⟩]), p1.2)

/-- The leaf pairs of a schedule tree, left to right. -/
def leavesOf : LdlTree → List (Cx × Cx)
  | LdlTree.Branch _ left right => leavesOf left ++ leavesOf right
  | LdlTree.Leaf v => [v]

/-- The branch skeleton of a schedule tree: shape and stored off-diagonal
polynomials, with every leaf payload erased to a fixed value. -/
def eraseLeaves : LdlTree → LdlTree
  | LdlTree.Branch ell left right => LdlTree.Branch ell (eraseLeaves left) (eraseLeaves right)
  | LdlTree.Leaf _ => LdlTree.Leaf (0, 0)

/-- `depthCheck t d` holds when every root-to-leaf path of `t` passes
through exactly `d` branch nodes (a perfect tree of `d` branch levels). -/
def depthCheck : LdlTree → ℕ → Bool
  | LdlTree.Leaf _, 0 => true
  | LdlTree.Branch _ left right, d + 1 => depthCheck left d && depthCheck right d
  | _, _ => false

/-- Number of leaves of a schedule tree. -/
def leafCount : LdlTree → ℕ
  | LdlTree.Branch _ left right => leafCount left + leafCount right
  | LdlTree.Leaf _ => 1

/-- 2x2 matrix product with Hadamard entrywise arithmetic:
`(A·B)[i,j] = Σ_k A[i,k] ⊙ B[k,j]`. -/
def matMul (a b : Mat2) : Mat2 :=
  ⟨polyAdd (hadamard_mul a.s0 b.s0) (hadamard_mul a.s1 b.s2),
   polyAdd (hadamard_mul a.s0 b.s1) (hadamard_mul a.s1 b.s3),
   polyAdd (hadamard_mul a.s2 b.s0) (hadamard_mul a.s3 b.s2),
   polyAdd (hadamard_mul a.s2 b.s1) (hadamard_mul a.s3 b.s3)⟩

/-- Conjugate transpose of a 2x2 matrix of FFT-domain polynomials. -/
def adjointM (a : Mat2) : Mat2 := ⟨conjP a.s0, conjP a.s2, conjP a.s1, conjP a.s3⟩

/-- Replace the structurally-fixed slots of an `ldl` factor pair by their
conventional values (unit lower-triangular `L`, diagonal `D`), keeping the
functionally-read slots `L10`, `D00`, `D11` as returned. -/
def conventionalize (ld : Mat2 × Mat2) (n : ℕ) : Mat2 × Mat2 :=
  (⟨onePoly n, zeroPoly n, ld.1.s2, onePoly n⟩,
   ⟨ld.2.s0, zeroPoly n, zeroPoly n, ld.2.s3⟩)

/-- All coefficients are real integers: zero imaginary part and an integer
real part. -/
def allReInt (p : Poly) : Prop := ∀ c ∈ p, c.im = 0 ∧ ∃ z : ℤ, c.re = (z : ℚ)

/-- Total coefficient access: the i-th coefficient, zero out of range. -/
def atIdx (p : Poly) (i : ℕ) : Cx := p.getD i 0

/-- Fuel-indexed variant of `ffldl`, used to measure its recursion depth:
each call (including the base case) consumes one unit of fuel, and the
recursive calls receive the remainder. -/
def ffldlF : ℕ → Mat2 → Option LdlTree
  | 0, _ => none
  | fuel + 1, g =>
    let n := g.s0.length
    let ld := ldl g
    if 2 < n then
      let p0 := split_fft ld.2.s0
      let p1 := split_fft ld.2.s3
      match ffldlF fuel ⟨p0.1, p0.2, conjP p0.2, p0.1⟩,
            ffldlF fuel ⟨p1.1, p1.2, conjP p1.2, p1.1⟩ with
      | some left, some right => some (LdlTree.Branch ld.1.s2 left right)
      | _, _ => none
    else
      some (LdlTree.Branch ld.1.s2
        (LdlTree.Leaf (ld.2.s0.getD 0 0, ld.2.s0.getD 1 0))
        (LdlTree.Leaf (ld.2.s3.getD 0 0, ld.2.s3.getD 1 0)))

/-- Fuel-indexed variant of `ffsampling`, used to measure its recursion
depth: each descent into a branch consumes one unit of fuel; a leaf call
performs no recursive descent and consumes none. -/
def ffsamplingF {R : Type} (samplerZ : ℚ → ℚ → ℚ → R → ℤ × R) :
    ℕ → (Poly × Poly) → LdlTree → FalconParameters → R →
    Option ((Poly × Poly) × R)
  | _, t, LdlTree.Leaf value, parameters, rng =>
    let p0 := samplerZ (t.1.getD 0 0).re value.1.re parameters.sigmin rng
    let p1 := samplerZ (t.2.getD 0 0).re value.1.re parameters.sigmin p0.2
    some (([⟨(p0.1 : ℚ), 0⟩], [⟨(p1.1 : ℚ), 0⟩]), p1.2)
  | 0, _, LdlTree.Branch _ _ _, _, _ => none
  | fuel + 1, t, LdlTree.Branch ell left right, parameters, rng =>
    match ffsamplingF samplerZ fuel (split_fft t.2) right parameters rng with
    | none => none
    | some (bz1, rng1) =>
      let z1 := merge_fft bz1.1 bz1.2
      let t0_prime := polyAdd t.1 (hadamard_mul (polySub t.2 z1) ell)
      match ffsamplingF samplerZ fuel (split_fft t0_prime) left parameters rng1 with
      | none => none
      | some (bz0, rng2) => some ((merge_fft bz0.1 bz0.2, z1), rng2)

/-! ### Basic scalar lemmas -/

@[ext] theorem Cx.ext {x y : Cx} (hre : x.re = y.re) (him : x.im = y.im) : x = y := by
  cases x; cases y; cases hre; cases him; rfl

@[simp] theorem Cx.zero_re : (0 : Cx).re = 0 := rfl

@[simp] theorem Cx.zero_im : (0 : Cx).im = 0 := rfl

@[simp] theorem Cx.one_re : (1 : Cx).re = 1 := rfl

@[simp] theorem Cx.one_im : (1 : Cx).im = 0 := rfl

@[simp] theorem Cx.add_re (x y : Cx) : (x + y).re = x.re + y.re := rfl

@[simp] theorem Cx.add_im (x y : Cx) : (x + y).im = x.im + y.im := rfl

@[simp] theorem Cx.sub_re (x y : Cx) : (x - y).re = x.re - y.re := rfl

@[simp] theorem Cx.sub_im (x y : Cx) : (x - y).im = x.im - y.im := rfl

@[simp] theorem Cx.mul_re (x y : Cx) : (x * y).re = x.re * y.re - x.im * y.im := rfl

@[simp] theorem Cx.mul_im (x y : Cx) : (x * y).im = x.re * y.im + x.im * y.re := rfl

@[simp] theorem Cx.div_re (x y : Cx) :
    (x / y).re = (x.re * y.re + x.im * y.im) / (y.re * y.re + y.im * y.im) := rfl

@[simp] theorem Cx.div_im (x y : Cx) :
    (x / y).im = (x.im * y.re - x.re * y.im) / (y.re * y.re + y.im * y.im) := rfl

@[simp] theorem Cx.conj_re (x : Cx) : x.conj.re = x.re := rfl

@[simp] theorem Cx.conj_im (x : Cx) : x.conj.im = -x.im := rfl

theorem Cx.conj_conj (x : Cx) : x.conj.conj = x := by ext <;> simp

theorem Cx.conj_mul (x y : Cx) : (x * y).conj = x.conj * y.conj := by ext <;> simp <;> ring

theorem Cx.conj_add (x y : Cx) : (x + y).conj = x.conj + y.conj := by
  ext <;> simp <;> ring

@[simp] theorem Cx.conj_zero : (0 : Cx).conj = 0 := by ext <;> simp

@[simp] theorem Cx.conj_one : (1 : Cx).conj = 1 := by ext <;> simp

theorem Cx.mul_comm (x y : Cx) : x * y = y * x := by ext <;> simp <;> ring

@[simp] theorem Cx.one_mul (x : Cx) : 1 * x = x := by ext <;> simp

@[simp] theorem Cx.mul_one (x : Cx) : x * 1 = x := by ext <;> simp

@[simp] theorem Cx.zero_mul (x : Cx) : 0 * x = 0 := by ext <;> simp

@[simp] theorem Cx.mul_zero (x : Cx) : x * 0 = 0 := by ext <;> simp

@[simp] theorem Cx.add_zero (x : Cx) : x + 0 = x := by ext <;> simp

@[simp] theorem Cx.zero_add (x : Cx) : 0 + x = x := by ext <;> simp

theorem Cx.re_ne_zero_of_ne {a : Cx} (him : a.im = 0) (h : a ≠ 0) : a.re ≠ 0 := by
  intro hre
  exact h (by ext <;> simp [hre, him])

theorem Cx.normSq_ne_zero {y : Cx} (h : y ≠ 0) : y.re * y.re + y.im * y.im ≠ 0 := by
  intro hsq
  have hre : y.re * y.re = 0 ∧ y.im * y.im = 0 := by
    constructor <;> nlinarith [mul_self_nonneg y.re, mul_self_nonneg y.im]
  exact h (by ext <;> simp [mul_self_eq_zero.mp hre.1, mul_self_eq_zero.mp hre.2])

theorem Cx.div_mul_cancel {a : Cx} (h : a ≠ 0) (c : Cx) : c / a * a = c := by
  have hd := Cx.normSq_ne_zero h
  ext <;> simp <;> field_simp <;> ring

theorem Cx.mul_conj_div {a : Cx} (him : a.im = 0) (h : a ≠ 0) (c : Cx) :
    a * (c / a).conj = c.conj := by
  have hre := Cx.re_ne_zero_of_ne him h
  ext <;> simp [him] <;> field_simp <;> ring

theorem Cx.schur_cancel (l a d : Cx) :
    l * a * l.conj + (d - a * (l * l.conj)) = d := by
  ext <;> simp <;> ring

/-! ### Basic polynomial (list) lemmas -/

theorem length_polyAdd (p q : Poly) : (polyAdd p q).length = max p.length q.length := by
  induction p generalizing q with
  | nil => cases q <;> simp [polyAdd]
  | cons a p ih =>
    cases q with
    | nil => simp [polyAdd]
    | cons b q => simp only [polyAdd, List.length_cons, ih]; omega

theorem length_polySub (p q : Poly) : (polySub p q).length = max p.length q.length := by
  induction q generalizing p with
  | nil => cases p <;> simp [polySub]
  | cons b q ih =>
    cases p with
    | nil =>
      have := ih []
      simp only [polySub, List.length_cons, List.length_nil] at *
      omega
    | cons a p =>
      have := ih p
      simp only [polySub, List.length_cons] at *
      omega

@[simp] theorem length_hadamard_mul (p q : Poly) :
    (hadamard_mul p q).length = min p.length q.length := List.length_zipWith ..

@[simp] theorem length_hadamard_div (p q : Poly) :
    (hadamard_div p q).length = min p.length q.length := List.length_zipWith ..

@[simp] theorem length_conjP (p : Poly) : (conjP p).length = p.length := List.length_map ..

theorem polyAdd_eq_zipWith {p q : Poly} (h : p.length = q.length) :
    polyAdd p q = List.zipWith (fun a b => a + b) p q := by
  induction p generalizing q with
  | nil => cases q <;> simp_all [polyAdd]
  | cons a p ih =>
    cases q with
    | nil => simp at h
    | cons b q =>
      simp only [List.length_cons] at h
      have h2 : p.length = q.length := by omega
      simp [polyAdd, ih h2]

theorem polySub_eq_zipWith {p q : Poly} (h : p.length = q.length) :
    polySub p q = List.zipWith (fun a b => a - b) p q := by
  induction p generalizing q with
  | nil => cases q <;> simp_all [polySub]
  | cons a p ih =>
    cases q with
    | nil => simp at h
    | cons b q =>
      simp only [List.length_cons] at h
      have h2 : p.length = q.length := by omega
      simp [polySub, ih h2]

theorem conjP_polyAdd (p q : Poly) :
    conjP (polyAdd p q) = polyAdd (conjP p) (conjP q) := by
  induction p generalizing q with
  | nil => cases q <;> simp [polyAdd, conjP]
  | cons a p ih =>
    cases q with
    | nil => simp [polyAdd, conjP]
    | cons b q => simp [polyAdd, conjP, Cx.conj_add] at ih ⊢; exact ih q

theorem conjP_hadamard_mul (p q : Poly) :
    conjP (hadamard_mul p q) = hadamard_mul (conjP p) (conjP q) := by
  induction p generalizing q with
  | nil => simp [hadamard_mul, conjP]
  | cons a p ih =>
    cases q with
    | nil => simp [hadamard_mul, conjP]
    | cons b q => simp [hadamard_mul, conjP, Cx.conj_mul] at ih ⊢; exact ih q

theorem conjP_conjP (p : Poly) : conjP (conjP p) = p := by
  induction p with
  | nil => rfl
  | cons a p ih => simp [conjP, Cx.conj_conj] at ih ⊢; exact ih

theorem hadamard_mul_comm (p q : Poly) : hadamard_mul p q = hadamard_mul q p := by
  induction p generalizing q with
  | nil => cases q <;> rfl
  | cons a p ih =>
    cases q with
    | nil => rfl
    | cons b q => simp [hadamard_mul, Cx.mul_comm a b] at ih ⊢; exact ih q

theorem split_fft_length (l : Poly) :
    (split_fft l).1.length = (l.length + 1) / 2 ∧
    (split_fft l).2.length = l.length / 2 := by
  induction l with
  | nil => simp [split_fft]
  | cons a l ih => simp only [split_fft, List.length_cons]; omega

theorem split_fft_fst_length (l : Poly) : (split_fft l).1.length = (l.length + 1) / 2 :=
  (split_fft_length l).1

theorem split_fft_snd_length (l : Poly) : (split_fft l).2.length = l.length / 2 :=
  (split_fft_length l).2

theorem length_merge_fft (p q : Poly) :
    (merge_fft p q).length = p.length + q.length := by
  induction p generalizing q with
  | nil => simp [merge_fft]
  | cons a p ih =>
    cases q with
    | nil => simp [merge_fft]
    | cons b q => simp only [merge_fft, List.length_cons, ih]; omega

theorem mem_merge_fft {c : Cx} {p q : Poly} (h : c ∈ merge_fft p q) : c ∈ p ∨ c ∈ q := by
  induction p generalizing q with
  | nil => simp [merge_fft] at h; exact Or.inr h
  | cons a p ih =>
    cases q with
    | nil => simp [merge_fft] at h; simp [h]
    | cons b q =>
      simp only [merge_fft, List.mem_cons] at h
      rcases h with h | h | h
      · simp [h]
      · simp [h]
      · rcases ih h with h | h
        · simp [h]
        · simp [h]

@[simp] theorem polyAdd_nil (q : Poly) : polyAdd [] q = q := by cases q <;> rfl

theorem Cx.zero_div (x : Cx) : 0 / x = 0 := by ext <;> simp

theorem Cx.div_zero (x : Cx) : x / 0 = 0 := by ext <;> simp

@[simp] theorem Cx.sub_zero (x : Cx) : x - 0 = x := by ext <;> simp

@[simp] theorem length_zeroPoly (n : ℕ) : (zeroPoly n).length = n := List.length_replicate ..

@[simp] theorem length_onePoly (n : ℕ) : (onePoly n).length = n := List.length_replicate ..

theorem map_mul_conj (p : Poly) :
    p.map (fun c => c * c.conj) = hadamard_mul p (conjP p) := by
  induction p with
  | nil => rfl
  | cons a p ih => simp only [List.map_cons, hadamard_mul, conjP, List.zipWith_cons_cons] at ih ⊢; rw [ih]

/-! ### Pointwise coefficient lemmas -/

theorem atIdx_nil (i : ℕ) : atIdx [] i = 0 := by simp [atIdx]

theorem atIdx_polyAdd (p q : Poly) (i : ℕ) :
    atIdx (polyAdd p q) i = atIdx p i + atIdx q i := by
  induction p generalizing q i with
  | nil => simp [atIdx, polyAdd]
  | cons a p ih =>
    cases q with
    | nil => simp [atIdx, polyAdd]
    | cons b q =>
      cases i with
      | zero => simp [atIdx, polyAdd]
      | succ i => simp only [polyAdd, atIdx, List.getD_cons_succ]; exact ih q i

theorem atIdx_polySub (p q : Poly) (i : ℕ) :
    atIdx (polySub p q) i = atIdx p i - atIdx q i := by
  induction q generalizing p i with
  | nil =>
    cases p <;> simp [atIdx, polySub]
  | cons b q ih =>
    cases p with
    | nil =>
      cases i with
      | zero => simp [atIdx, polySub]
      | succ i =>
        simp only [polySub, atIdx, List.getD_cons_succ, List.getD_nil]
        have := ih [] i
        simpa [atIdx] using this
    | cons a p =>
      cases i with
      | zero => simp [atIdx, polySub]
      | succ i => simp only [polySub, atIdx, List.getD_cons_succ]; exact ih p i

theorem atIdx_hadamard_mul (p q : Poly) (i : ℕ) :
    atIdx (hadamard_mul p q) i = atIdx p i * atIdx q i := by
  induction p generalizing q i with
  | nil => simp [atIdx, hadamard_mul]
  | cons a p ih =>
    cases q with
    | nil => simp [atIdx, hadamard_mul]
    | cons b q =>
      cases i with
      | zero => simp [atIdx, hadamard_mul]
      | succ i => simp only [hadamard_mul, List.zipWith_cons_cons, atIdx,
          List.getD_cons_succ]; exact ih q i

theorem atIdx_hadamard_div (p q : Poly) (i : ℕ) :
    atIdx (hadamard_div p q) i = atIdx p i / atIdx q i := by
  induction p generalizing q i with
  | nil => simp [atIdx, hadamard_div, Cx.zero_div]
  | cons a p ih =>
    cases q with
    | nil => simp [atIdx, hadamard_div, Cx.div_zero]
    | cons b q =>
      cases i with
      | zero => simp [atIdx, hadamard_div]
      | succ i => simp only [hadamard_div, List.zipWith_cons_cons, atIdx,
          List.getD_cons_succ]; exact ih q i

theorem atIdx_conjP (p : Poly) (i : ℕ) : atIdx (conjP p) i = (atIdx p i).conj := by
  induction p generalizing i with
  | nil => simp [atIdx, conjP]
  | cons a p ih =>
    cases i with
    | zero => simp [atIdx, conjP]
    | succ i => simp only [conjP, List.map_cons, atIdx, List.getD_cons_succ]; exact ih i

theorem atIdx_zeroPoly (n i : ℕ) : atIdx (zeroPoly n) i = 0 := by
  induction n generalizing i with
  | zero => simp [atIdx, zeroPoly]
  | succ n ih =>
    cases i with
    | zero => simp [atIdx, zeroPoly]
    | succ i =>
      simp only [zeroPoly, List.replicate_succ, atIdx, List.getD_cons_succ]
      exact ih i

theorem atIdx_onePoly {n i : ℕ} (h : i < n) : atIdx (onePoly n) i = 1 := by
  induction n generalizing i with
  | zero => omega
  | succ n ih =>
    cases i with
    | zero => simp [atIdx, onePoly]
    | succ i =>
      simp only [onePoly, List.replicate_succ, atIdx, List.getD_cons_succ]
      exact ih (by omega)

theorem atIdx_mem {p : Poly} {i : ℕ} (h : i < p.length) : atIdx p i ∈ p := by
  induction p generalizing i with
  | nil => simp at h
  | cons a p ih =>
    cases i with
    | zero => simp [atIdx]
    | succ i =>
      simp only [atIdx, List.getD_cons_succ]
      exact List.mem_cons_of_mem a (ih (by simpa using h))

theorem eq_of_atIdx {p q : Poly} (hl : p.length = q.length)
    (h : ∀ i, i < p.length → atIdx p i = atIdx q i) : p = q := by
  induction p generalizing q with
  | nil => cases q with
    | nil => rfl
    | cons b q => simp at hl
  | cons a p ih =>
    cases q with
    | nil => simp at hl
    | cons b q =>
      have h0 := h 0 (by simp)
      simp only [atIdx, List.getD_cons_zero] at h0
      have htail : p = q := by
        refine ih (by simpa using hl) (fun i hi => ?_)
        have := h (i + 1) (by simp only [List.length_cons]; omega)
        simpa only [atIdx, List.getD_cons_succ] using this
      rw [h0, htail]

/-! ### Unfolding and shape lemmas for the tree builder -/

theorem ldl_eq (g : Mat2) :
    ldl g = (⟨zeroPoly g.s0.length, onePoly g.s0.length, hadamard_div g.s2 g.s0,
              zeroPoly g.s0.length⟩,
             ⟨g.s0, onePoly g.s0.length, onePoly g.s0.length,
              polySub g.s3 (hadamard_mul g.s0
                ((hadamard_div g.s2 g.s0).map (fun c => c * c.conj)))⟩) := rfl

theorem ffldl_base {g : Mat2} (h : ¬ 2 < g.s0.length) :
    ffldl g = LdlTree.Branch (ldl g).1.s2
      (LdlTree.Leaf ((ldl g).2.s0.getD 0 0, (ldl g).2.s0.getD 1 0))
      (LdlTree.Leaf ((ldl g).2.s3.getD 0 0, (ldl g).2.s3.getD 1 0)) := by
  rw [ffldl]
  simp [h]

theorem ffldl_rec {g : Mat2} (h : 2 < g.s0.length) :
    ffldl g = LdlTree.Branch (ldl g).1.s2
      (ffldl ⟨(split_fft (ldl g).2.s0).1, (split_fft (ldl g).2.s0).2,
              conjP (split_fft (ldl g).2.s0).2, (split_fft (ldl g).2.s0).1⟩)
      (ffldl ⟨(split_fft (ldl g).2.s3).1, (split_fft (ldl g).2.s3).2,
              conjP (split_fft (ldl g).2.s3).2, (split_fft (ldl g).2.s3).1⟩) := by
  rw [ffldl]
  simp [h]

theorem leafCount_of_depthCheck {t : LdlTree} :
    ∀ {d : ℕ}, depthCheck t d = true → leafCount t = 2 ^ d := by
  induction t with
  | Leaf v =>
    intro d h
    cases d with
    | zero => rfl
    | succ d => simp [depthCheck] at h
  | Branch ell left right ihl ihr =>
    intro d h
    cases d with
    | zero => simp [depthCheck] at h
    | succ d =>
      simp only [depthCheck, Bool.and_eq_true] at h
      simp [leafCount, ihl h.1, ihr h.2, pow_succ]
      omega

theorem ffldl_depthCheck : ∀ k : ℕ, 1 ≤ k → ∀ g : Mat2,
    g.s0.length = 2 ^ k → g.s2.length = 2 ^ k → g.s3.length = 2 ^ k →
    depthCheck (ffldl g) k = true := by
  intro k
  induction k with
  | zero => intro h; omega
  | succ k ih =>
    intro _ g h0 h2 h3
    rcases Nat.eq_zero_or_pos k with hk | hk
    · subst hk
      have hnot : ¬ 2 < g.s0.length := by rw [h0]; omega
      rw [ffldl_base hnot]
      rfl
    · have hpow : (2 : ℕ) ^ (k + 1) = 2 ^ k * 2 := pow_succ 2 k
      have hk2 : 2 ≤ 2 ^ k := Nat.one_lt_two_pow_iff.mpr (by omega)
      have hgt : 2 < g.s0.length := by omega
      have hd0 : (ldl g).2.s0.length = 2 ^ (k + 1) := by rw [ldl_eq]; exact h0
      have hd3 : (ldl g).2.s3.length = 2 ^ (k + 1) := by
        rw [ldl_eq]
        simp only [length_polySub, length_hadamard_mul, List.length_map,
          length_hadamard_div, h0, h2, h3]
        omega
      rw [ffldl_rec hgt]
      simp only [depthCheck, Bool.and_eq_true]
      constructor
      · apply ih hk
        · simp only [split_fft_fst_length, hd0]; omega
        · simp only [length_conjP, split_fft_snd_length, hd0]; omega
        · simp only [split_fft_fst_length, hd0]; omega
      · apply ih hk
        · simp only [split_fft_fst_length, hd3]; omega
        · simp only [length_conjP, split_fft_snd_length, hd3]; omega
        · simp only [split_fft_fst_length, hd3]; omega

theorem reconstruction_explicit (A C Dp : Poly) (n : ℕ)
    (hA : A.length = n) (hC : C.length = n) (hD : Dp.length = n)
    (hpd : ∀ c ∈ A, c.im = 0 ∧ c ≠ 0) :
    matMul (matMul (Mat2.mk (onePoly n) (zeroPoly n) (hadamard_div C A) (onePoly n))
        (Mat2.mk A (zeroPoly n) (zeroPoly n)
          (polySub Dp (hadamard_mul A ((hadamard_div C A).map (fun c => c * c.conj))))))
      (adjointM (Mat2.mk (onePoly n) (zeroPoly n) (hadamard_div C A) (onePoly n))) =
    Mat2.mk A (conjP C) C Dp := by
  rw [map_mul_conj]
  have hidx : ∀ i, i < n → (atIdx A i).im = 0 ∧ atIdx A i ≠ 0 := by
    intro i hi
    exact hpd _ (atIdx_mem (by omega))
  simp only [matMul, adjointM, Mat2.mk.injEq]
  refine ⟨?_, ?_, ?_, ?_⟩
  all_goals
    apply eq_of_atIdx
    · simp only [length_polyAdd, length_hadamard_mul, length_hadamard_div,
        length_conjP, length_polySub, length_zeroPoly, length_onePoly, hA, hC, hD]
      all_goals omega
    · intro i hi
      have hin : i < n := by
        simp only [length_polyAdd, length_hadamard_mul, length_hadamard_div,
          length_conjP, length_polySub, length_zeroPoly, length_onePoly,
          hA, hC, hD] at hi
        omega
      obtain ⟨him, hne⟩ := hidx i hin
      simp only [atIdx_polyAdd, atIdx_polySub, atIdx_hadamard_mul,
        atIdx_hadamard_div, atIdx_conjP, atIdx_zeroPoly, atIdx_onePoly hin]
      simp only [Cx.one_mul, Cx.mul_one, Cx.zero_mul, Cx.mul_zero,
        Cx.conj_one, Cx.conj_zero, Cx.add_zero, Cx.zero_add]
      all_goals
        first
        | rfl
        | exact Cx.mul_conj_div him hne _
        | exact Cx.div_mul_cancel hne _
        | exact Cx.schur_cancel _ _ _

/-! ### Claim theorems -/

/-- C1: at every branch node and for every matching target pair, `ffsampling`
samples the right subtree first on the split of `t1`, merges the result into
`z1`, computes the corrected left target `t0' = t0 + (t1 - z1) ⊙ offDiag`
with the branch's stored coefficient, splits it, recurses into the left
subtree, and returns `(z0, z1)`; the random state consumed by the left
recursion is exactly the state left over by the right recursion. -/
theorem ffsampling_branch_order {R : Type} (samplerZ : ℚ → ℚ → ℚ → R → ℤ × R)
    (ell : Poly) (left right : LdlTree) (t0 t1 : Poly)
    (parameters : FalconParameters) (rng : R) :
    ffsampling samplerZ (t0, t1) (LdlTree.Branch ell left right) parameters rng =
      (let r1 := ffsampling samplerZ (split_fft t1) right parameters rng
       let z1 := merge_fft r1.1.1 r1.1.2
       let t0_prime := polyAdd t0 (hadamard_mul (polySub t1 z1) ell)
       let r0 := ffsampling samplerZ (split_fft t0_prime) left parameters r1.2
       ((merge_fft r0.1.1 r0.1.2, z1), r0.2)) := rfl

/-- C7: at a leaf holding scalars `(v0, v1)` with length-1 targets,
`ffsampling` invokes the scalar discrete-Gaussian primitive exactly twice —
first centered at the real part of `t0`'s single coefficient, then at the
real part of `t1`'s, both with standard deviation the real part of the
leaf's first scalar and with the parameters' floor — and wraps the two
integers as length-1 real polynomials; the second call consumes the state
left by the first. -/
theorem ffsampling_leaf_calls {R : Type} (samplerZ : ℚ → ℚ → ℚ → R → ℤ × R)
    (v : Cx × Cx) (t0 t1 : Poly) (parameters : FalconParameters) (rng : R) :
    ffsampling samplerZ (t0, t1) (LdlTree.Leaf v) parameters rng =
      (let p0 := samplerZ (t0.getD 0 0).re v.1.re parameters.sigmin rng
       let p1 := samplerZ (t1.getD 0 0).re v.1.re parameters.sigmin p0.2
       (([⟨(p0.1 : ℚ), 0⟩], [⟨(p1.1 : ℚ), 0⟩]), p1.2)) := rfl

/-- C4: `normalize_tree` visits every leaf and rewrites its two scalars: the
first becomes `σ / sqrt(re of the original first scalar)` with zero
imaginary part, the second becomes exactly zero (stated for every scalar
square-root function, the square root being external to the source). -/
theorem normalize_tree_leaves (sqrtQ : ℚ → ℚ) (tree : LdlTree) (sigma : ℚ) :
    leavesOf (normalize_tree sqrtQ tree sigma) =
      (leavesOf tree).map (fun v => (⟨sigma / sqrtQ v.1.re, 0⟩, 0)) := by
  induction tree with
  | Branch ell left right ihl ihr => simp [normalize_tree, leavesOf, ihl, ihr]
  | Leaf v => rfl

/-- C10: `normalize_tree` only rewrites leaf payloads: the tree shape and
every branch node's stored off-diagonal polynomial are unchanged. -/
theorem normalize_tree_frame (sqrtQ : ℚ → ℚ) (tree : LdlTree) (sigma : ℚ) :
    eraseLeaves (normalize_tree sqrtQ tree sigma) = eraseLeaves tree := by
  induction tree with
  | Branch ell left right ihl ihr => simp [normalize_tree, eraseLeaves, ihl, ihr]
  | Leaf v => rfl

/-- C6: the Gram matrix is Hermitian — slot (0,1) is the elementwise
conjugate of slot (1,0) — and every slot carries
`G[i,j] = Σ_k B[i,k] ⊙ conj(B[j,k])`. -/
theorem gram_hermitian_formula (b : Mat2) :
    (gram b).s1 = conjP ((gram b).s2) ∧
    (gram b).s0 = polyAdd (hadamard_mul b.s0 (conjP b.s0)) (hadamard_mul b.s1 (conjP b.s1)) ∧
    (gram b).s1 = polyAdd (hadamard_mul b.s0 (conjP b.s2)) (hadamard_mul b.s1 (conjP b.s3)) ∧
    (gram b).s2 = polyAdd (hadamard_mul b.s2 (conjP b.s0)) (hadamard_mul b.s3 (conjP b.s1)) ∧
    (gram b).s3 = polyAdd (hadamard_mul b.s2 (conjP b.s2)) (hadamard_mul b.s3 (conjP b.s3)) := by
  refine ⟨?_, ?_, ?_, ?_, ?_⟩
  · show polyAdd (polyAdd polyZero (hadamard_mul b.s0 (conjP b.s2)))
        (hadamard_mul b.s1 (conjP b.s3)) =
      conjP (polyAdd (polyAdd polyZero (hadamard_mul b.s2 (conjP b.s0)))
        (hadamard_mul b.s3 (conjP b.s1)))
    simp only [polyZero, polyAdd_nil, conjP_polyAdd, conjP_hadamard_mul, conjP_conjP]
    rw [hadamard_mul_comm (conjP b.s2) b.s0, hadamard_mul_comm (conjP b.s3) b.s1]
  all_goals simp only [gram, polyZero, polyAdd_nil]

/-- C5: for a matrix of common length `n = 2^k` (k ≥ 1), the tree built by
`ffldl` is a perfect tree of exactly `k` branch levels with exactly `n`
leaves (each leaf holds a pair of two complex scalars by the type of
`LdlTree.Leaf`). -/
theorem ffldl_tree_shape (k : ℕ) (g : Mat2) (hk : 1 ≤ k)
    (h0 : g.s0.length = 2 ^ k) (h1 : g.s1.length = 2 ^ k)
    (h2 : g.s2.length = 2 ^ k) (h3 : g.s3.length = 2 ^ k) :
    depthCheck (ffldl g) k = true ∧ leafCount (ffldl g) = 2 ^ k := by
  have hd := ffldl_depthCheck k hk g h0 h2 h3
  exact ⟨hd, leafCount_of_depthCheck hd⟩

/-- Witness for C5 at the claim's own example `n = 4`: a concrete length-4
matrix yields exactly 2 branch levels and 4 leaves. -/
theorem ffldl_tree_shape_witness :
    (1 ≤ 2 ∧
      (Mat2.mk [⟨1,0⟩,⟨1,0⟩,⟨1,0⟩,⟨1,0⟩] [⟨1,0⟩,⟨1,0⟩,⟨1,0⟩,⟨1,0⟩]
        [⟨1,0⟩,⟨1,0⟩,⟨1,0⟩,⟨1,0⟩] [⟨1,0⟩,⟨1,0⟩,⟨1,0⟩,⟨1,0⟩]).s0.length = 2 ^ 2) ∧
    depthCheck (ffldl (Mat2.mk [⟨1,0⟩,⟨1,0⟩,⟨1,0⟩,⟨1,0⟩] [⟨1,0⟩,⟨1,0⟩,⟨1,0⟩,⟨1,0⟩]
        [⟨1,0⟩,⟨1,0⟩,⟨1,0⟩,⟨1,0⟩] [⟨1,0⟩,⟨1,0⟩,⟨1,0⟩,⟨1,0⟩])) 2 = true ∧
    leafCount (ffldl (Mat2.mk [⟨1,0⟩,⟨1,0⟩,⟨1,0⟩,⟨1,0⟩] [⟨1,0⟩,⟨1,0⟩,⟨1,0⟩,⟨1,0⟩]
        [⟨1,0⟩,⟨1,0⟩,⟨1,0⟩,⟨1,0⟩] [⟨1,0⟩,⟨1,0⟩,⟨1,0⟩,⟨1,0⟩])) = 2 ^ 2 :=
  ⟨⟨by decide, by decide⟩,
   ffldl_tree_shape 2 _ (by decide) (by decide) (by decide) (by decide) (by decide)⟩

/-- C8 (code slip): `ldl` binds the local `zero` to the one-constant and the
local `one` to the zero-constant, so the structurally-fixed slots come out
swapped relative to the claim (and to the source's own doc comment, which
promises a lower-triangular `L` and diagonal `D`): at the concrete Hermitian
matrix `G = [[1],[0],[0],[1]]`, the returned `L00`, `L11` are the all-zeros
polynomial, `L01` the all-ones polynomial, and `D01`, `D10` the all-ones
polynomial — while the claim requires the opposite. -/
theorem ldl_fixed_slots_swapped :
    (ldl (Mat2.mk [⟨1,0⟩] [⟨0,0⟩] [⟨0,0⟩] [⟨1,0⟩])).1.s0 = zeroPoly 1 ∧
    (ldl (Mat2.mk [⟨1,0⟩] [⟨0,0⟩] [⟨0,0⟩] [⟨1,0⟩])).1.s1 = onePoly 1 ∧
    (ldl (Mat2.mk [⟨1,0⟩] [⟨0,0⟩] [⟨0,0⟩] [⟨1,0⟩])).1.s3 = zeroPoly 1 ∧
    (ldl (Mat2.mk [⟨1,0⟩] [⟨0,0⟩] [⟨0,0⟩] [⟨1,0⟩])).2.s1 = onePoly 1 ∧
    (ldl (Mat2.mk [⟨1,0⟩] [⟨0,0⟩] [⟨0,0⟩] [⟨1,0⟩])).2.s2 = onePoly 1 ∧
    onePoly 1 ≠ zeroPoly 1 := by decide

/-- Counterexample to C2 as stated: at the Hermitian positive-definite
matrix `G = [[2],[0],[0],[3]]`, the elementwise triple product of the
factors actually returned by `ldl` (whose structurally-fixed slots carry the
swapped constants) does not equal `G`: its (0,0) slot evaluates to `d11 = 3`
instead of `g00 = 2`. -/
theorem ldl_triple_product_fails :
    matMul (matMul (ldl (Mat2.mk [⟨2,0⟩] [⟨0,0⟩] [⟨0,0⟩] [⟨3,0⟩])).1
        (ldl (Mat2.mk [⟨2,0⟩] [⟨0,0⟩] [⟨0,0⟩] [⟨3,0⟩])).2)
      (adjointM (ldl (Mat2.mk [⟨2,0⟩] [⟨0,0⟩] [⟨0,0⟩] [⟨3,0⟩])).1) ≠
    Mat2.mk [⟨2,0⟩] [⟨0,0⟩] [⟨0,0⟩] [⟨3,0⟩] := by
  intro h
  have h0 := congrArg (fun m => (m.s0.getD 0 0).re) h
  simp only [ldl_eq, matMul, adjointM, hadamard_mul, hadamard_div, conjP, polyAdd,
    polySub, zeroPoly, onePoly, List.replicate, List.zipWith, List.map, List.getD,
    List.getElem?_cons_zero, Option.getD_some, Cx.add_re, Cx.add_im, Cx.sub_re,
    Cx.sub_im, Cx.mul_re, Cx.mul_im, Cx.div_re, Cx.div_im, Cx.conj_re, Cx.conj_im,
    List.length_cons, List.length_nil] at h0
  norm_num at h0

theorem allReInt_merge {p q : Poly} (hp : allReInt p) (hq : allReInt q) :
    allReInt (merge_fft p q) := by
  intro c hc
  rcases mem_merge_fft hc with h | h
  · exact hp c h
  · exact hq c h

theorem ffsampling_integral_aux {R : Type} (samplerZ : ℚ → ℚ → ℚ → R → ℤ × R) :
    ∀ (tree : LdlTree) (k : ℕ) (t0 t1 : Poly) (parameters : FalconParameters) (rng : R),
    depthCheck tree k = true →
    (ffsampling samplerZ (t0, t1) tree parameters rng).1.1.length = 2 ^ k ∧
    (ffsampling samplerZ (t0, t1) tree parameters rng).1.2.length = 2 ^ k ∧
    allReInt (ffsampling samplerZ (t0, t1) tree parameters rng).1.1 ∧
    allReInt (ffsampling samplerZ (t0, t1) tree parameters rng).1.2 := by
  intro tree
  induction tree with
  | Leaf v =>
    intro k t0 t1 parameters rng hd
    cases k with
    | zero =>
      refine ⟨rfl, rfl, ?_, ?_⟩ <;>
      · intro c hc
        simp only [ffsampling, List.mem_singleton] at hc
        subst hc
        exact ⟨rfl, ⟨_, rfl⟩⟩
    | succ k => simp [depthCheck] at hd
  | Branch ell left right ihl ihr =>
    intro k t0 t1 parameters rng hd
    cases k with
    | zero => simp [depthCheck] at hd
    | succ k =>
      simp only [depthCheck, Bool.and_eq_true] at hd
      rcases hsp1 : split_fft t1 with ⟨u1, u2⟩
      have hr := ihr k u1 u2 parameters rng hd.2
      rcases hz1 : ffsampling samplerZ (u1, u2) right parameters rng with ⟨⟨z1a, z1b⟩, rng1⟩
      rw [hz1] at hr
      simp only at hr
      rcases hsp0 : split_fft (polyAdd t0 (hadamard_mul (polySub t1 (merge_fft z1a z1b)) ell))
        with ⟨w1, w2⟩
      have hl := ihl k w1 w2 parameters rng1 hd.1
      rcases hz0 : ffsampling samplerZ (w1, w2) left parameters rng1 with ⟨⟨z0a, z0b⟩, rng2⟩
      rw [hz0] at hl
      simp only at hl
      have hunfold : ffsampling samplerZ (t0, t1) (LdlTree.Branch ell left right) parameters rng =
          ((merge_fft z0a z0b, merge_fft z1a z1b), rng2) := by
        simp only [ffsampling, hsp1, hz1, hsp0, hz0]
      rw [hunfold]
      have hpow : (2 : ℕ) ^ (k + 1) = 2 ^ k * 2 := pow_succ 2 k
      refine ⟨?_, ?_, ?_, ?_⟩
      · rw [length_merge_fft, hl.1, hl.2.1]; omega
      · rw [length_merge_fft, hr.1, hr.2.1]; omega
      · exact allReInt_merge hl.2.2.1 hl.2.2.2
      · exact allReInt_merge hr.2.2.1 hr.2.2.2

theorem ffldl_child_lengths {k : ℕ} {g : Mat2} (h0 : g.s0.length = 2 ^ (k + 1))
    (h2 : g.s2.length = 2 ^ (k + 1)) (h3 : g.s3.length = 2 ^ (k + 1)) :
    (split_fft (ldl g).2.s0).1.length = 2 ^ k ∧
    (split_fft (ldl g).2.s0).2.length = 2 ^ k ∧
    (split_fft (ldl g).2.s3).1.length = 2 ^ k ∧
    (split_fft (ldl g).2.s3).2.length = 2 ^ k := by
  have hd0 : (ldl g).2.s0.length = 2 ^ (k + 1) := by rw [ldl_eq]; exact h0
  have hd3 : (ldl g).2.s3.length = 2 ^ (k + 1) := by
    rw [ldl_eq]
    simp only [length_polySub, length_hadamard_mul, List.length_map,
      length_hadamard_div, h0, h2, h3]
    omega
  have hpow : (2 : ℕ) ^ (k + 1) = 2 ^ k * 2 := pow_succ 2 k
  refine ⟨?_, ?_, ?_, ?_⟩ <;>
    simp only [split_fft_fst_length, split_fft_snd_length, hd0, hd3] <;> omega

theorem ffldlF_eq_some : ∀ k : ℕ, 1 ≤ k → ∀ g : Mat2,
    g.s0.length = 2 ^ k → g.s2.length = 2 ^ k → g.s3.length = 2 ^ k →
    ffldlF k g = some (ffldl g) := by
  intro k
  induction k with
  | zero => omega
  | succ k ih =>
    intro _ g h0 h2 h3
    rcases Nat.eq_zero_or_pos k with hk | hk
    · subst hk
      have hnot : ¬ 2 < g.s0.length := by rw [h0]; omega
      rw [ffldl_base hnot]
      simp only [ffldlF, if_neg hnot]
    · have hk2 : 2 ≤ 2 ^ k := Nat.one_lt_two_pow_iff.mpr (by omega)
      have hpow : (2 : ℕ) ^ (k + 1) = 2 ^ k * 2 := pow_succ 2 k
      have hgt : 2 < g.s0.length := by omega
      obtain ⟨c1, c2, c3, c4⟩ := ffldl_child_lengths h0 h2 h3
      rw [ffldl_rec hgt]
      simp only [ffldlF, if_pos hgt]
      rw [ih hk ⟨(split_fft (ldl g).2.s0).1, (split_fft (ldl g).2.s0).2,
            conjP (split_fft (ldl g).2.s0).2, (split_fft (ldl g).2.s0).1⟩
          c1 (by simpa using c2) c1,
        ih hk ⟨(split_fft (ldl g).2.s3).1, (split_fft (ldl g).2.s3).2,
            conjP (split_fft (ldl g).2.s3).2, (split_fft (ldl g).2.s3).1⟩
          c3 (by simpa using c4) c3]

theorem ffldlF_lt_none : ∀ k : ℕ, 1 ≤ k → ∀ j : ℕ, j < k → ∀ g : Mat2,
    g.s0.length = 2 ^ k → g.s2.length = 2 ^ k → g.s3.length = 2 ^ k →
    ffldlF j g = none := by
  intro k
  induction k with
  | zero => omega
  | succ k ih =>
    intro _ j hj g h0 h2 h3
    cases j with
    | zero => rfl
    | succ j =>
      have hk : 1 ≤ k := by omega
      have hk2 : 2 ≤ 2 ^ k := Nat.one_lt_two_pow_iff.mpr (by omega)
      have hpow : (2 : ℕ) ^ (k + 1) = 2 ^ k * 2 := pow_succ 2 k
      have hgt : 2 < g.s0.length := by omega
      obtain ⟨c1, c2, c3, c4⟩ := ffldl_child_lengths h0 h2 h3
      simp only [ffldlF, if_pos hgt]
      rw [ih hk j (by omega) ⟨(split_fft (ldl g).2.s0).1, (split_fft (ldl g).2.s0).2,
            conjP (split_fft (ldl g).2.s0).2, (split_fft (ldl g).2.s0).1⟩
          c1 (by simpa using c2) c1]

theorem ffsamplingF_eq_some {R : Type} (samplerZ : ℚ → ℚ → ℚ → R → ℤ × R) :
    ∀ (tree : LdlTree) (k : ℕ) (t : Poly × Poly) (parameters : FalconParameters) (rng : R),
    depthCheck tree k = true →
    ffsamplingF samplerZ k t tree parameters rng =
      some (ffsampling samplerZ t tree parameters rng) := by
  intro tree
  induction tree with
  | Leaf v =>
    intro k t parameters rng hd
    cases k <;> rfl
  | Branch ell left right ihl ihr =>
    intro k t parameters rng hd
    cases k with
    | zero => simp [depthCheck] at hd
    | succ k =>
      simp only [depthCheck, Bool.and_eq_true] at hd
      rcases hz1 : ffsampling samplerZ (split_fft t.2) right parameters rng
        with ⟨⟨z1a, z1b⟩, rng1⟩
      have hr := ihr k (split_fft t.2) parameters rng hd.2
      rw [hz1] at hr
      rcases hz0 : ffsampling samplerZ
          (split_fft (polyAdd t.1 (hadamard_mul (polySub t.2 (merge_fft z1a z1b)) ell)))
          left parameters rng1 with ⟨⟨z0a, z0b⟩, rng2⟩
      have hl := ihl k
        (split_fft (polyAdd t.1 (hadamard_mul (polySub t.2 (merge_fft z1a z1b)) ell)))
        parameters rng1 hd.1
      rw [hz0] at hl
      have hunfold : ffsampling samplerZ t (LdlTree.Branch ell left right) parameters rng =
          ((merge_fft z0a z0b, merge_fft z1a z1b), rng2) := by
        simp only [ffsampling, hz1, hz0]
      rw [hunfold]
      simp only [ffsamplingF, hr, hl]

theorem ffsamplingF_lt_none {R : Type} (samplerZ : ℚ → ℚ → ℚ → R → ℤ × R) :
    ∀ (tree : LdlTree) (k j : ℕ), j < k → depthCheck tree k = true →
    ∀ (t : Poly × Poly) (parameters : FalconParameters) (rng : R),
    ffsamplingF samplerZ j t tree parameters rng = none := by
  intro tree
  induction tree with
  | Leaf v =>
    intro k j hj hd
    cases k with
    | zero => omega
    | succ k => simp [depthCheck] at hd
  | Branch ell left right ihl ihr =>
    intro k j hj hd t parameters rng
    cases k with
    | zero => simp [depthCheck] at hd
    | succ k =>
      simp only [depthCheck, Bool.and_eq_true] at hd
      cases j with
      | zero => rfl
      | succ j =>
        simp only [ffsamplingF]
        rw [ihr k j (by omega) hd.2 (split_fft t.2) parameters rng]

/-- C2 (amended): for a Hermitian matrix with real, slot-wise nonzero `g00`,
`ldl` returns `L10 = g10 ⊘ g00`, `D00 = g00` and
`D11 = g11 − g00 ⊙ (L10 ⊙ conj L10)`, and the elementwise triple product
`L·D·L*` equals `G` exactly once the structurally-fixed slots of the
returned factors are taken at their conventional values (unit
lower-triangular `L`, diagonal `D`) — as stated, with the slots the code
actually returns, the product differs from `G` (see the counterexample). -/
theorem ldl_factors_reconstruction (g : Mat2) (n : ℕ)
    (h0 : g.s0.length = n) (h1 : g.s1.length = n)
    (h2 : g.s2.length = n) (h3 : g.s3.length = n)
    (hherm : g.s1 = conjP g.s2)
    (hpd : ∀ c ∈ g.s0, c.im = 0 ∧ c ≠ 0) :
    (ldl g).1.s2 = hadamard_div g.s2 g.s0 ∧
    (ldl g).2.s0 = g.s0 ∧
    (ldl g).2.s3 = polySub g.s3 (hadamard_mul g.s0
      (hadamard_mul (hadamard_div g.s2 g.s0) (conjP (hadamard_div g.s2 g.s0)))) ∧
    matMul (matMul (conventionalize (ldl g) n).1 (conventionalize (ldl g) n).2)
        (adjointM (conventionalize (ldl g) n).1) = g := by
  refine ⟨rfl, rfl, ?_, ?_⟩
  · show polySub g.s3
        (hadamard_mul g.s0 ((hadamard_div g.s2 g.s0).map (fun c => c * c.conj))) = _
    rw [map_mul_conj]
  · calc matMul (matMul (conventionalize (ldl g) n).1 (conventionalize (ldl g) n).2)
          (adjointM (conventionalize (ldl g) n).1)
        = Mat2.mk g.s0 (conjP g.s2) g.s2 g.s3 :=
          reconstruction_explicit g.s0 g.s2 g.s3 n h0 h2 h3 hpd
      _ = g := by rw [← hherm]

/-- Witness for C2 at the concrete Hermitian positive-definite matrix
`G = [[2], [1+i], [1-i] conjugated, [5]]` of length 1. -/
theorem ldl_factors_reconstruction_witness :
    ((Mat2.mk [⟨2,0⟩] [⟨1,-1⟩] [⟨1,1⟩] [⟨5,0⟩]).s0.length = 1 ∧
     (Mat2.mk [⟨2,0⟩] [⟨1,-1⟩] [⟨1,1⟩] [⟨5,0⟩]).s1 =
       conjP (Mat2.mk [⟨2,0⟩] [⟨1,-1⟩] [⟨1,1⟩] [⟨5,0⟩]).s2 ∧
     (∀ c ∈ (Mat2.mk [⟨2,0⟩] [⟨1,-1⟩] [⟨1,1⟩] [⟨5,0⟩]).s0, c.im = 0 ∧ c ≠ 0)) ∧
    matMul (matMul
        (conventionalize (ldl (Mat2.mk [⟨2,0⟩] [⟨1,-1⟩] [⟨1,1⟩] [⟨5,0⟩])) 1).1
        (conventionalize (ldl (Mat2.mk [⟨2,0⟩] [⟨1,-1⟩] [⟨1,1⟩] [⟨5,0⟩])) 1).2)
      (adjointM (conventionalize (ldl (Mat2.mk [⟨2,0⟩] [⟨1,-1⟩] [⟨1,1⟩] [⟨5,0⟩])) 1).1) =
    Mat2.mk [⟨2,0⟩] [⟨1,-1⟩] [⟨1,1⟩] [⟨5,0⟩] :=
  ⟨⟨rfl, rfl, by decide⟩,
   (ldl_factors_reconstruction (Mat2.mk [⟨2,0⟩] [⟨1,-1⟩] [⟨1,1⟩] [⟨5,0⟩]) 1
     rfl rfl rfl rfl rfl (by decide)).2.2.2⟩

/-- C3: for a perfect schedule tree of `k` branch levels (dimension
`n = 2^k`) and length-`n` targets, `ffsampling` returns a pair of length-`n`
polynomials all of whose coefficients are real integers: zero imaginary
part and an integer real part. -/
theorem ffsampling_output_integral {R : Type} (samplerZ : ℚ → ℚ → ℚ → R → ℤ × R)
    (k n : ℕ) (tree : LdlTree) (t0 t1 : Poly)
    (parameters : FalconParameters) (rng : R)
    (hn : n = 2 ^ k) (htree : depthCheck tree k = true)
    (ht0 : t0.length = n) (ht1 : t1.length = n) :
    (ffsampling samplerZ (t0, t1) tree parameters rng).1.1.length = n ∧
    (ffsampling samplerZ (t0, t1) tree parameters rng).1.2.length = n ∧
    allReInt (ffsampling samplerZ (t0, t1) tree parameters rng).1.1 ∧
    allReInt (ffsampling samplerZ (t0, t1) tree parameters rng).1.2 := by
  subst hn
  exact ffsampling_integral_aux samplerZ tree k t0 t1 parameters rng htree

/-- Witness for C3: a concrete depth-1 tree, length-2 targets and a concrete
scalar sampler over state `ℕ`. -/
theorem ffsampling_output_integral_witness :
    ((2 : ℕ) = 2 ^ 1 ∧
     depthCheck (LdlTree.Branch [⟨0,0⟩]
       (LdlTree.Leaf (⟨1,0⟩, ⟨0,0⟩)) (LdlTree.Leaf (⟨1,0⟩, ⟨0,0⟩))) 1 = true ∧
     ([⟨1,0⟩, ⟨2,0⟩] : Poly).length = 2 ∧ ([⟨3,0⟩, ⟨4,0⟩] : Poly).length = 2) ∧
    ((ffsampling (fun _ _ _ (r : ℕ) => ((5 : ℤ), r + 1)) ([⟨1,0⟩, ⟨2,0⟩], [⟨3,0⟩, ⟨4,0⟩])
        (LdlTree.Branch [⟨0,0⟩] (LdlTree.Leaf (⟨1,0⟩, ⟨0,0⟩)) (LdlTree.Leaf (⟨1,0⟩, ⟨0,0⟩)))
        ⟨1⟩ 0).1.1.length = 2 ∧
     (ffsampling (fun _ _ _ (r : ℕ) => ((5 : ℤ), r + 1)) ([⟨1,0⟩, ⟨2,0⟩], [⟨3,0⟩, ⟨4,0⟩])
        (LdlTree.Branch [⟨0,0⟩] (LdlTree.Leaf (⟨1,0⟩, ⟨0,0⟩)) (LdlTree.Leaf (⟨1,0⟩, ⟨0,0⟩)))
        ⟨1⟩ 0).1.2.length = 2 ∧
     allReInt (ffsampling (fun _ _ _ (r : ℕ) => ((5 : ℤ), r + 1)) ([⟨1,0⟩, ⟨2,0⟩], [⟨3,0⟩, ⟨4,0⟩])
        (LdlTree.Branch [⟨0,0⟩] (LdlTree.Leaf (⟨1,0⟩, ⟨0,0⟩)) (LdlTree.Leaf (⟨1,0⟩, ⟨0,0⟩)))
        ⟨1⟩ 0).1.1 ∧
     allReInt (ffsampling (fun _ _ _ (r : ℕ) => ((5 : ℤ), r + 1)) ([⟨1,0⟩, ⟨2,0⟩], [⟨3,0⟩, ⟨4,0⟩])
        (LdlTree.Branch [⟨0,0⟩] (LdlTree.Leaf (⟨1,0⟩, ⟨0,0⟩)) (LdlTree.Leaf (⟨1,0⟩, ⟨0,0⟩)))
        ⟨1⟩ 0).1.2) :=
  ⟨⟨by decide, by decide, by decide, by decide⟩,
   ffsampling_output_integral (fun _ _ _ (r : ℕ) => ((5 : ℤ), r + 1)) 1 2
     (LdlTree.Branch [⟨0,0⟩] (LdlTree.Leaf (⟨1,0⟩, ⟨0,0⟩)) (LdlTree.Leaf (⟨1,0⟩, ⟨0,0⟩)))
     [⟨1,0⟩, ⟨2,0⟩] [⟨3,0⟩, ⟨4,0⟩] ⟨1⟩ 0 (by decide) (by decide) (by decide) (by decide)⟩

/-- C9: for a matrix of common length `n = 2^k` (k ≥ 1), `ffldl` terminates
after exactly `k = log2 n` levels of recursive descent — the fuel-indexed
variant succeeds with fuel `k` (producing exactly `ffldl`'s tree) and fails
with fuel `k - 1` — and, for a perfect tree of `k` branch levels and any
matching target pair, `ffsampling` likewise terminates after exactly `k`
levels of recursive descent. -/
theorem recursion_depth_log2 (k : ℕ) (hk : 1 ≤ k) (g : Mat2)
    (h0 : g.s0.length = 2 ^ k) (h1 : g.s1.length = 2 ^ k)
    (h2 : g.s2.length = 2 ^ k) (h3 : g.s3.length = 2 ^ k)
    {R : Type} (samplerZ : ℚ → ℚ → ℚ → R → ℤ × R)
    (tree : LdlTree) (htree : depthCheck tree k = true)
    (t : Poly × Poly) (parameters : FalconParameters) (rng : R) :
    ffldlF k g = some (ffldl g) ∧
    ffldlF (k - 1) g = none ∧
    ffsamplingF samplerZ k t tree parameters rng =
      some (ffsampling samplerZ t tree parameters rng) ∧
    ffsamplingF samplerZ (k - 1) t tree parameters rng = none := by
  refine ⟨ffldlF_eq_some k hk g h0 h2 h3,
    ffldlF_lt_none k hk (k - 1) (by omega) g h0 h2 h3,
    ffsamplingF_eq_some samplerZ tree k t parameters rng htree,
    ffsamplingF_lt_none samplerZ tree k (k - 1) (by omega) htree t parameters rng⟩

/-- Witness for C9 at `k = 1`: a concrete length-2 matrix and a concrete
depth-1 tree with a concrete sampler over state `ℕ`. -/
theorem recursion_depth_log2_witness :
    (1 ≤ 1 ∧
     (Mat2.mk [⟨1,0⟩, ⟨2,0⟩] [⟨0,0⟩, ⟨0,0⟩] [⟨0,0⟩, ⟨0,0⟩] [⟨3,0⟩, ⟨4,0⟩]).s0.length = 2 ^ 1 ∧
     depthCheck (LdlTree.Branch [⟨0,0⟩]
       (LdlTree.Leaf (⟨1,0⟩, ⟨0,0⟩)) (LdlTree.Leaf (⟨1,0⟩, ⟨0,0⟩))) 1 = true) ∧
    (ffldlF 1 (Mat2.mk [⟨1,0⟩, ⟨2,0⟩] [⟨0,0⟩, ⟨0,0⟩] [⟨0,0⟩, ⟨0,0⟩] [⟨3,0⟩, ⟨4,0⟩]) =
       some (ffldl (Mat2.mk [⟨1,0⟩, ⟨2,0⟩] [⟨0,0⟩, ⟨0,0⟩] [⟨0,0⟩, ⟨0,0⟩] [⟨3,0⟩, ⟨4,0⟩])) ∧
     ffldlF 0 (Mat2.mk [⟨1,0⟩, ⟨2,0⟩] [⟨0,0⟩, ⟨0,0⟩] [⟨0,0⟩, ⟨0,0⟩] [⟨3,0⟩, ⟨4,0⟩]) = none ∧
     ffsamplingF (fun _ _ _ (r : ℕ) => ((7 : ℤ), r + 1)) 1 ([⟨1,0⟩, ⟨2,0⟩], [⟨3,0⟩, ⟨4,0⟩])
        (LdlTree.Branch [⟨0,0⟩] (LdlTree.Leaf (⟨1,0⟩, ⟨0,0⟩)) (LdlTree.Leaf (⟨1,0⟩, ⟨0,0⟩)))
        ⟨1⟩ 0 =
       some (ffsampling (fun _ _ _ (r : ℕ) => ((7 : ℤ), r + 1)) ([⟨1,0⟩, ⟨2,0⟩], [⟨3,0⟩, ⟨4,0⟩])
        (LdlTree.Branch [⟨0,0⟩] (LdlTree.Leaf (⟨1,0⟩, ⟨0,0⟩)) (LdlTree.Leaf (⟨1,0⟩, ⟨0,0⟩)))
        ⟨1⟩ 0) ∧
     ffsamplingF (fun _ _ _ (r : ℕ) => ((7 : ℤ), r + 1)) 0 ([⟨1,0⟩, ⟨2,0⟩], [⟨3,0⟩, ⟨4,0⟩])
        (LdlTree.Branch [⟨0,0⟩] (LdlTree.Leaf (⟨1,0⟩, ⟨0,0⟩)) (LdlTree.Leaf (⟨1,0⟩, ⟨0,0⟩)))
        ⟨1⟩ 0 = none) :=
  ⟨⟨by decide, by decide, by decide⟩,
   recursion_depth_log2 1 (by decide)
     (Mat2.mk [⟨1,0⟩, ⟨2,0⟩] [⟨0,0⟩, ⟨0,0⟩] [⟨0,0⟩, ⟨0,0⟩] [⟨3,0⟩, ⟨4,0⟩])
     (by decide) (by decide) (by decide) (by decide)
     (fun _ _ _ (r : ℕ) => ((7 : ℤ), r + 1))
     (LdlTree.Branch [⟨0,0⟩] (LdlTree.Leaf (⟨1,0⟩, ⟨0,0⟩)) (LdlTree.Leaf (⟨1,0⟩, ⟨0,0⟩)))
     (by decide) ([⟨1,0⟩, ⟨2,0⟩], [⟨3,0⟩, ⟨4,0⟩]) ⟨1⟩ 0⟩

end FalconFFO
